import Mathlib

/-!
Verification of the MCP (Model Context Protocol) transport layer and the
tool-calling agent loop of the kovi-plugin-xiaoshi chatbot.

The development shallowly embeds the relevant parts of `src/chatbot/mcp.rs`,
`src/chatbot/chat.rs` and `src/chatbot/llm.rs`:

* the pending-request table shared between `send_request` and the background
  reader tasks of `StdioTransport` and `SseTransport` (a `HashMap<u64, oneshot
  Sender>` behind a lock, modelled as an association list of request id to a
  waiter token);
* the SSE framing loop of `SseTransport::start_sse_listener` (byte chunks
  accumulated into a buffer, frames delimited by a blank line);
* the response-body interpretation of `StreamableHttpTransport::send_request`;
* `SseTransport::get_post_url`;
* `McpClient::initialize`;
* `McpManager::refresh_tools`, `McpManager::call_tool`,
  `McpManager::get_openai_tools`;
* `ChatBot::completion_with_tools` (the bounded tool-calling loop).

External collaborators (the serde_json parser, the HTTP stack, the LLM
provider, the tool servers behind a transport) are passed in as function
parameters, so every definition here is executable.
-/

/-- Minimal model of a `serde_json::Value` payload. -/
inductive JsonValue where
  | null
  | bool (b : Bool)
  | num (n : Int)
  | str (s : String)
  | arr (xs : List JsonValue)
  | obj (fields : List (String × JsonValue))

/-- `JsonRpcError` from mcp.rs: the structured error of a JSON-RPC response. -/
structure JsonRpcErrorM where
  code : Int
  message : String
deriving DecidableEq

/-- `JsonRpcResponse` from mcp.rs: echoes an optional id and carries either a
result payload or a structured error. -/
structure JsonRpcResponseM where
  id : Option Nat
  result : Option JsonValue
  error : Option JsonRpcErrorM

/-- The error taxonomy of the transport layer, as produced by the `anyhow`
error strings of mcp.rs. -/
inductive McpError where
  | Timeout
  | ChannelClosed
  | SendFailed
  | ProtocolError (code : Int) (message : String)
  | NotFoundTool (toolName : String)
  | ClientMissing (clientName : String)
  | SseUnparsable
deriving DecidableEq

/-- Association-list lookup, modelling `HashMap::get`. -/
def lookupA {α : Type} {β : Type} [DecidableEq α] : List (α × β) → α → Option β
  | [], _ => none
  | p :: rest, k => if p.1 = k then some p.2 else lookupA rest k

/-- Association-list insert with overwrite, modelling `HashMap::insert`. -/
def insertA {α : Type} {β : Type} [DecidableEq α] : List (α × β) → α → β → List (α × β)
  | [], k, v => [(k, v)]
  | p :: rest, k, v => if p.1 = k then (k, v) :: rest else p :: insertA rest k v

/-- Association-list removal, modelling `HashMap::remove`. -/
def eraseA {α : Type} {β : Type} [DecidableEq α] (m : List (α × β)) (k : α) : List (α × β) :=
  m.filter (fun p => !decide (p.1 = k))

theorem lookupA_eraseA_self {α β : Type} [DecidableEq α] (m : List (α × β)) (k : α) :
    lookupA (eraseA m k) k = none := by
  induction m with
  | nil => rfl
  | cons p rest ih =>
    simp only [eraseA, List.filter_cons] at ih ⊢
    by_cases h : p.1 = k
    · simp [h]
      exact ih
    · simp [h, lookupA]
      exact ih

theorem lookupA_eraseA_none {α β : Type} [DecidableEq α] (m : List (α × β)) (j k : α)
    (h : lookupA m k = none) : lookupA (eraseA m j) k = none := by
  induction m with
  | nil => rfl
  | cons p rest ih =>
    by_cases hpk : p.1 = k
    · simp [lookupA, hpk] at h
    · simp [lookupA, hpk] at h
      simp only [eraseA, List.filter_cons]
      by_cases hpj : p.1 = j
      · simp [hpj]
        exact ih h
      · simp [hpj, lookupA, hpk]
        exact ih h

theorem lookupA_insertA_self {α β : Type} [DecidableEq α] (m : List (α × β)) (k : α) (v : β) :
    lookupA (insertA m k v) k = some v := by
  induction m with
  | nil => simp [insertA, lookupA]
  | cons p rest ih =>
    by_cases h : p.1 = k
    · simp [insertA, h, lookupA]
    · simp [insertA, h, lookupA, ih]

/-- The pending-request table of a transport: request id paired with a token
identifying the registered oneshot waiter. -/
def PendingTable : Type := List (Nat × Nat)

/-- Outcome delivered to a waiter for a given response, from the reader task of
`StdioTransport::new` (mcp.rs lines 248-259): a response carrying an `error`
resolves the waiter with a protocol error, otherwise with
`result.unwrap_or(Null)`. -/
def respOutcome (resp : JsonRpcResponseM) : Except McpError JsonValue :=
  match resp.error with
  | some e => Except.error (McpError.ProtocolError e.code e.message)
  | none => Except.ok (resp.result.getD JsonValue.null)

/-- One step of the reader task of `StdioTransport::new` (mcp.rs lines 244-261)
and of the SSE data-frame handler of `SseTransport::start_sse_listener`
(mcp.rs lines 395-419): a decoded response with id `i` removes the entry under
`i` (if any) and resolves exactly that waiter; a response without id, or whose
id has no entry, changes nothing.  Returns the new table and, when a waiter was
resolved, the triple (id, waiter, delivered outcome). -/
def readerStep (tbl : List (Nat × Nat)) (resp : JsonRpcResponseM) :
    List (Nat × Nat) × Option (Nat × Nat × Except McpError JsonValue) :=
  match resp.id with
  | none => (tbl, none)
  | some i =>
    match lookupA tbl i with
    | some w => (eraseA tbl i, some (i, w, respOutcome resp))
    | none => (tbl, none)

/-- The reader task over a whole sequence of decoded responses, collecting the
(id, waiter) pairs that were resolved. -/
def runReader (tbl : List (Nat × Nat)) : List JsonRpcResponseM → List (Nat × Nat) × List (Nat × Nat)
  | [] => (tbl, [])
  | r :: rest =>
    match readerStep tbl r with
    | (tbl1, none) => runReader tbl1 rest
    | (tbl1, some (i, w, _)) =>
      let s := runReader tbl1 rest
      (s.1, (i, w) :: s.2)

/-- Number of resolutions delivered to id `i` in a reader run. -/
def countResolved (resolved : List (Nat × Nat)) (i : Nat) : Nat :=
  (resolved.filter (fun p => decide (p.1 = i))).length

/-- Registration performed by `StdioTransport::send_request` (mcp.rs lines
293-297) and `SseTransport::send_request` (lines 473-477): a fresh oneshot
channel is created and its sender is inserted under the new request id. -/
def registerPending (tbl : List (Nat × Nat)) (i w : Nat) : List (Nat × Nat) :=
  insertA tbl i w

/-- `StdioTransport::send_request` / `SseTransport::send_request` in the run
where no response for the request ever arrives: the entry is inserted, the
30-second `tokio::time::timeout` elapses, and the caller gets the timeout
error (`MCP 请求超时`, mcp.rs lines 304-307 and 491-494).  No statement in
either function removes the entry from `pending_requests` on this path, so the
returned table still holds it. -/
def sendRequestTimeout (tbl : List (Nat × Nat)) (i w : Nat) :
    List (Nat × Nat) × McpError :=
  (registerPending tbl i w, McpError.Timeout)

/-- `n` successive requests (ids 0..n-1) that all time out, starting from an
empty pending table. -/
def timeoutMany (n : Nat) : List (Nat × Nat) :=
  (List.range n).foldl (fun t i => (sendRequestTimeout t i i).1) []

theorem countResolved_cons_self (l : List (Nat × Nat)) (j w : Nat) :
    countResolved ((j, w) :: l) j = countResolved l j + 1 := by
  simp [countResolved, List.filter_cons]

theorem countResolved_cons_ne (l : List (Nat × Nat)) (i j w : Nat) (h : ¬ (j = i)) :
    countResolved ((j, w) :: l) i = countResolved l i := by
  simp [countResolved, List.filter_cons, h]

theorem runReader_count_zero (i : Nat) (resps : List JsonRpcResponseM) :
    ∀ tbl, lookupA tbl i = none → countResolved (runReader tbl resps).2 i = 0 := by
  induction resps with
  | nil => intro tbl h; rfl
  | cons r rest ih =>
    intro tbl h
    rcases hid2 : r.id with _ | j
    · simp [runReader, readerStep, hid2]
      exact ih tbl h
    · rcases hl : lookupA tbl j with _ | w
      · simp [runReader, readerStep, hid2, hl]
        exact ih tbl h
      · have hji : ¬ (j = i) := by
          intro he
          rw [he, h] at hl
          cases hl
        simp [runReader, readerStep, hid2, hl]
        rw [countResolved_cons_ne _ _ _ _ hji]
        exact ih (eraseA tbl j) (lookupA_eraseA_none tbl j i h)

theorem runReader_count_le_one (i : Nat) (resps : List JsonRpcResponseM) :
    ∀ tbl, countResolved (runReader tbl resps).2 i ≤ 1 := by
  induction resps with
  | nil => intro tbl; simp [runReader, countResolved]
  | cons r rest ih =>
    intro tbl
    rcases hid2 : r.id with _ | j
    · simp [runReader, readerStep, hid2]
      exact ih tbl
    · rcases hl : lookupA tbl j with _ | w
      · simp [runReader, readerStep, hid2, hl]
        exact ih tbl
      · by_cases hji : j = i
        · subst hji
          simp [runReader, readerStep, hid2, hl]
          rw [countResolved_cons_self]
          have hz := runReader_count_zero j rest (eraseA tbl j) (lookupA_eraseA_self tbl j)
          omega
        · simp [runReader, readerStep, hid2, hl]
          rw [countResolved_cons_ne _ _ _ _ hji]
          exact ih (eraseA tbl j)

/-- Claim C2: each pending-table entry is resolved at most once and only by the
response carrying its own id.  For any table and any response with id `i`:
(1) if a waiter `w` is registered under `i`, the reader resolves exactly that
waiter and removes the entry; (2) a second delivery of the same response finds
no entry and resolves nothing; (3) a response whose id is not pending leaves
the table unchanged and resolves nothing; (4) over any sequence of responses,
id `i` is resolved at most once. -/
theorem reader_resolves_each_id_at_most_once
    (tbl : List (Nat × Nat)) (resp : JsonRpcResponseM) (i w : Nat)
    (hid : resp.id = some i) :
    (lookupA tbl i = some w →
        readerStep tbl resp = (eraseA tbl i, some (i, w, respOutcome resp)))
    ∧ (readerStep (readerStep tbl resp).1 resp).2 = none
    ∧ (lookupA tbl i = none → readerStep tbl resp = (tbl, none))
    ∧ (∀ resps, countResolved (runReader tbl resps).2 i ≤ 1) := by
  refine ⟨?_, ?_, ?_, ?_⟩
  · intro hl
    simp [readerStep, hid, hl]
  · rcases hl : lookupA tbl i with _ | w'
    · simp [readerStep, hid, hl]
    · simp [readerStep, hid, hl, lookupA_eraseA_self]
  · intro hl
    simp [readerStep, hid, hl]
  · intro resps
    exact runReader_count_le_one i resps tbl

theorem reader_resolves_each_id_at_most_once_witness :
    readerStep [(5, 0)] { id := some 5, result := none, error := none } =
      ([], some (5, 0, Except.ok JsonValue.null)) := by
  have h := reader_resolves_each_id_at_most_once [(5, 0)]
      { id := some 5, result := none, error := none } 5 0 rfl
  exact h.1 rfl

set_option maxRecDepth 40000 in
/-- Claim C1 (code bug): the pending entry of a timed-out request is NOT
removed.  Evaluating `send_request` on the failing input (a request whose
server never responds): the caller receives the timeout error, yet the entry
is still in the table afterwards, and 100 timed-out requests leave a table of
size 100 — the table's growth is unbounded, contradicting the claim that the
id is removed on timeout. -/
theorem stdio_send_request_timeout_keeps_pending_entry :
    (sendRequestTimeout [] 1 7).2 = McpError.Timeout
    ∧ lookupA (sendRequestTimeout [] 1 7).1 1 = some 7
    ∧ (timeoutMany 100).length = 100 := by
  refine ⟨rfl, rfl, ?_⟩
  rfl

/-- Observable outcome of `McpManager::call_tool` (mcp.rs lines 881-896), up to
the forwarded client call (which is IO): either the routed invocation on a
named client, or one of the two lookup failures. -/
inductive ManagerCallOutcome where
  | forwarded (clientName : String) (toolName : String) (args : JsonValue)
  | errorNoTool (toolName : String)
  | errorNoClient (clientName : String)

/-- `McpManager::call_tool`: look up the owning server in `tool_to_client`;
if absent fail (`找不到工具 ... 对应的 MCP 服务器`); otherwise look up the
client by name (failing with `MCP 客户端 ... 不存在`) and forward the call. -/
def managerCallTool (routing : List (String × String)) (clients : List String)
    (toolName : String) (args : JsonValue) : ManagerCallOutcome :=
  match lookupA routing toolName with
  | none => ManagerCallOutcome.errorNoTool toolName
  | some clientName =>
    if clients.contains clientName
    then ManagerCallOutcome.forwarded clientName toolName args
    else ManagerCallOutcome.errorNoClient clientName

/-- Claim C4: `call_tool` on a name absent from the routing table fails with
the not-found error, never forwards to any client, and the outcome does not
depend on the set of clients at all (it is decided purely by the routing-table
lookup). -/
theorem manager_call_tool_unknown_name_not_found
    (routing : List (String × String)) (clients : List String)
    (toolName : String) (args : JsonValue)
    (h : lookupA routing toolName = none) :
    managerCallTool routing clients toolName args = ManagerCallOutcome.errorNoTool toolName
    ∧ (∀ c a, managerCallTool routing clients toolName args ≠ ManagerCallOutcome.forwarded c toolName a)
    ∧ (∀ clients2, managerCallTool routing clients2 toolName args
        = managerCallTool routing clients toolName args) := by
  refine ⟨?_, ?_, ?_⟩
  · simp [managerCallTool, h]
  · intro c a hc
    simp [managerCallTool, h] at hc
  · intro clients2
    simp [managerCallTool, h]

theorem manager_call_tool_unknown_name_not_found_witness :
    managerCallTool [] ["srv"] "echo" JsonValue.null
      = ManagerCallOutcome.errorNoTool "echo" :=
  (manager_call_tool_unknown_name_not_found [] ["srv"] "echo" JsonValue.null rfl).1

/-- What one call of `McpClient::initialize` (mcp.rs lines 702-745) does,
observably: whether the guard flag ends up set, whether the handshake request
was sent on the transport, whether the `notifications/initialized`
notification was sent, and whether the call returned `Ok`. -/
structure InitStepResult where
  newInitialized : Bool
  sentRequest : Bool
  sentNotification : Bool
  returnedOk : Bool
deriving DecidableEq

/-- One call of `McpClient::initialize`, given the guard flag and the outcome
the transport would deliver for the handshake request: if the flag is set the
call returns `Ok` immediately sending nothing; otherwise the `initialize`
request is sent, an error propagates (leaving the flag unset), and on success
the `notifications/initialized` notification is sent (result ignored) and the
flag is set. -/
def initializeStep (initialized : Bool) (handshakeOutcome : Except McpError JsonValue) :
    InitStepResult :=
  if initialized then
    { newInitialized := true, sentRequest := false, sentNotification := false, returnedOk := true }
  else
    match handshakeOutcome with
    | Except.error _ =>
      { newInitialized := false, sentRequest := true, sentNotification := false, returnedOk := false }
    | Except.ok _ =>
      { newInitialized := true, sentRequest := true, sentNotification := true, returnedOk := true }

/-- Accumulated observations over a sequence of `initialize` calls on one
client. -/
structure InitRun where
  initialized : Bool
  requests : Nat
  notifications : Nat
  results : List Bool
deriving DecidableEq

def initRunStep (acc : InitRun) (outcome : Except McpError JsonValue) : InitRun :=
  let st := initializeStep acc.initialized outcome
  { initialized := st.newInitialized,
    requests := acc.requests + (if st.sentRequest then 1 else 0),
    notifications := acc.notifications + (if st.sentNotification then 1 else 0),
    results := acc.results ++ [st.returnedOk] }

def runInitFrom (acc : InitRun) (outcomes : List (Except McpError JsonValue)) : InitRun :=
  outcomes.foldl initRunStep acc

/-- A sequence of `initialize` calls on a fresh client, the i-th call's
handshake request (if sent) getting the i-th outcome. -/
def runInitialize (outcomes : List (Except McpError JsonValue)) : InitRun :=
  runInitFrom { initialized := false, requests := 0, notifications := 0, results := [] } outcomes

theorem runInitFrom_notifications_le :
    ∀ (outcomes : List (Except McpError JsonValue)) (acc : InitRun),
      (runInitFrom acc outcomes).notifications
        ≤ acc.notifications + (if acc.initialized then 0 else 1) := by
  intro outcomes
  induction outcomes with
  | nil => intro acc; cases h : acc.initialized <;> simp [runInitFrom]
  | cons oc rest ih =>
    intro acc
    cases h : acc.initialized
    · cases oc with
      | error e =>
        have := ih (initRunStep acc (Except.error e))
        simp [runInitFrom, List.foldl_cons] at this ⊢
        simp [initRunStep, initializeStep, h] at this ⊢
        omega
      | ok v =>
        have := ih (initRunStep acc (Except.ok v))
        simp [runInitFrom, List.foldl_cons] at this ⊢
        simp [initRunStep, initializeStep, h] at this ⊢
        omega
    · have := ih (initRunStep acc oc)
      simp [runInitFrom, List.foldl_cons] at this ⊢
      simp [initRunStep, initializeStep, h] at this ⊢
      omega

/-- Claim C9, amended: (1) once the guard flag is set, a further `initialize`
call returns success and sends neither a request nor a notification; (2) any
call that returns success leaves the flag set; (3) across any sequence of
calls on a fresh client the `initialized` notification is sent at most once.
(The handshake request itself is NOT sent at most once: a failed attempt
leaves the flag unset and a later call re-sends it — see the counterexample.) -/
theorem initialize_idempotent_after_success :
    (∀ oc, initializeStep true oc =
      { newInitialized := true, sentRequest := false, sentNotification := false,
        returnedOk := true })
    ∧ (∀ st oc, (initializeStep st oc).returnedOk = true →
        (initializeStep st oc).newInitialized = true)
    ∧ (∀ outcomes, (runInitialize outcomes).notifications ≤ 1) := by
  refine ⟨?_, ?_, ?_⟩
  · intro oc
    simp [initializeStep]
  · intro st oc hok
    cases st
    · cases oc with
      | error e => simp [initializeStep] at hok
      | ok v => simp [initializeStep]
    · simp [initializeStep]
  · intro outcomes
    have := runInitFrom_notifications_le outcomes
      { initialized := false, requests := 0, notifications := 0, results := [] }
    simpa [runInitialize] using this

theorem initialize_idempotent_after_success_witness :
    (initializeStep false (Except.ok JsonValue.null)).newInitialized = true :=
  initialize_idempotent_after_success.2.1 false (Except.ok JsonValue.null) rfl

/-- Claim C9, counterexample to "the handshake request is performed at most
once": a first call whose handshake times out, followed by a second call that
succeeds, sends the handshake request twice on a client on which `initialize`
did once return success. -/
theorem initialize_handshake_request_twice_counterexample :
    (runInitialize [Except.error McpError.Timeout, Except.ok JsonValue.null]).requests = 2
    ∧ (runInitialize [Except.error McpError.Timeout, Except.ok JsonValue.null]).results
        = [false, true]
    ∧ (runInitialize [Except.error McpError.Timeout, Except.ok JsonValue.null]).initialized
        = true :=
  ⟨rfl, rfl, rfl⟩

theorem lookupA_insertA {α β : Type} [DecidableEq α] (m : List (α × β)) (k n : α) (v : β) :
    lookupA (insertA m k v) n = if k = n then some v else lookupA m n := by
  induction m with
  | nil => simp [insertA, lookupA]
  | cons p rest ih =>
    by_cases hpk : p.1 = k
    · by_cases hkn : k = n <;> simp [insertA, hpk, lookupA, hkn]
    · by_cases hpn : p.1 = n
      · have hkn : ¬ (k = n) := fun h2 => hpk (hpn.trans h2.symm)
        have hnk : ¬ (n = k) := fun h2 => hkn h2.symm
        simp [insertA, hpk, lookupA, hpn, hkn, hnk]
      · simp [insertA, hpk, lookupA, hpn, ih]

/-- `McpToolInputSchema` from mcp.rs. -/
structure McpToolInputSchemaM where
  schema_type : String
  properties : JsonValue
  required : List String

/-- `McpTool` from mcp.rs. -/
structure McpToolM where
  name : String
  description : String
  input_schema : McpToolInputSchemaM

/-- The per-server body of `McpManager::refresh_tools` (mcp.rs lines 849-861):
a successful `list_tools` contributes every tool to the flattened list and
inserts (overwriting) its name into the routing table; a failing server is
logged and contributes nothing. -/
def refreshStep (acc : List McpToolM × List (String × String))
    (srv : String × Except McpError (List McpToolM)) :
    List McpToolM × List (String × String) :=
  match srv.2 with
  | Except.ok tools =>
    tools.foldl (fun acc2 tool => (acc2.1 ++ [tool], insertA acc2.2 tool.name srv.1)) acc
  | Except.error _ => acc

def refreshFrom (acc : List McpToolM × List (String × String))
    (servers : List (String × Except McpError (List McpToolM))) :
    List McpToolM × List (String × String) :=
  servers.foldl refreshStep acc

/-- `McpManager::refresh_tools`: rebuild `all_tools` and `tool_to_client` from
the per-server discovery results (given in the iteration order of the client
map). -/
def refreshTools (servers : List (String × Except McpError (List McpToolM))) :
    List McpToolM × List (String × String) :=
  refreshFrom ([], []) servers

/-- Flattening of all successful discovery results, in order — one entry per
(server, tool) pair, duplicate names included. -/
def successfulTools (servers : List (String × Except McpError (List McpToolM))) : List McpToolM :=
  (servers.map (fun s =>
    match s.2 with
    | Except.ok ts => ts
    | Except.error _ => [])).flatten

/-- Specification-side description of the routing table: the LAST server in
processing order whose discovery result contains a tool of the given name. -/
def lastOwner : List (String × Except McpError (List McpToolM)) → String → Option String
  | [], _ => none
  | srv :: rest, n =>
    match lastOwner rest n with
    | some s => some s
    | none =>
      match srv.2 with
      | Except.ok tools =>
        if tools.any (fun t => decide (t.name = n)) then some srv.1 else none
      | Except.error _ => none

/-- `McpManager::get_openai_tools` (mcp.rs lines 899-918): a 1-to-1 conversion
of the flattened tool list into the OpenAI function-tool shape. -/
def getOpenaiTools (tools : List McpToolM) : List JsonValue :=
  tools.map (fun tool =>
    JsonValue.obj [("type", JsonValue.str "function"),
      ("function", JsonValue.obj [("name", JsonValue.str tool.name),
        ("description", JsonValue.str tool.description),
        ("parameters", JsonValue.obj [("type", JsonValue.str tool.input_schema.schema_type),
          ("properties", tool.input_schema.properties),
          ("required", JsonValue.arr (tool.input_schema.required.map JsonValue.str))])])])

theorem innerFold_fst (srvName : String) (tools : List McpToolM) :
    ∀ acc : List McpToolM × List (String × String),
      (tools.foldl (fun acc2 tool => (acc2.1 ++ [tool], insertA acc2.2 tool.name srvName)) acc).1
        = acc.1 ++ tools := by
  induction tools with
  | nil => intro acc; simp
  | cons t ts ih =>
    intro acc
    simp [List.foldl_cons, ih]

theorem innerFold_lookup (srvName n : String) (tools : List McpToolM) :
    ∀ acc : List McpToolM × List (String × String),
      lookupA (tools.foldl
          (fun acc2 tool => (acc2.1 ++ [tool], insertA acc2.2 tool.name srvName)) acc).2 n
        = if tools.any (fun t => decide (t.name = n)) then some srvName else lookupA acc.2 n := by
  induction tools with
  | nil => intro acc; simp
  | cons t ts ih =>
    intro acc
    rw [List.foldl_cons]
    rw [ih]
    by_cases hts : ts.any (fun t2 => decide (t2.name = n)) = true
    · simp [hts, List.any_cons]
    · by_cases ht : t.name = n
      · simp [hts, ht, List.any_cons, lookupA_insertA]
      · simp [hts, ht, List.any_cons, lookupA_insertA]

theorem refreshFrom_spec (n : String) :
    ∀ (servers : List (String × Except McpError (List McpToolM)))
      (acc : List McpToolM × List (String × String)),
      (refreshFrom acc servers).1 = acc.1 ++ successfulTools servers
      ∧ lookupA (refreshFrom acc servers).2 n
          = (match lastOwner servers n with
             | some s => some s
             | none => lookupA acc.2 n) := by
  intro servers
  induction servers with
  | nil =>
    intro acc
    simp [refreshFrom, successfulTools, lastOwner]
  | cons srv rest ih =>
    intro acc
    rcases srv with ⟨srvName, res⟩
    cases res with
    | error e =>
      have h := ih acc
      refine ⟨?_, ?_⟩
      · simpa [refreshFrom, List.foldl_cons, refreshStep, successfulTools] using h.1
      · rcases hrest : lastOwner rest n with _ | s <;>
          simpa [refreshFrom, List.foldl_cons, refreshStep, lastOwner, hrest] using h.2
    | ok tools =>
      have h := ih (tools.foldl
        (fun acc2 tool => (acc2.1 ++ [tool], insertA acc2.2 tool.name srvName)) acc)
      refine ⟨?_, ?_⟩
      · have h1 := h.1
        rw [innerFold_fst] at h1
        simpa [refreshFrom, List.foldl_cons, refreshStep, successfulTools] using h1
      · have h2 := h.2
        rw [innerFold_lookup] at h2
        rcases hrest : lastOwner rest n with _ | s
        · rw [hrest] at h2
          by_cases hany : tools.any (fun t => decide (t.name = n)) = true <;>
            simpa [refreshFrom, List.foldl_cons, refreshStep, lastOwner, hrest, hany] using h2
        · rw [hrest] at h2
          simpa [refreshFrom, List.foldl_cons, refreshStep, lastOwner, hrest] using h2

def demoTool : McpToolM :=
  { name := "t", description := "demo",
    input_schema := { schema_type := "object", properties := JsonValue.obj [], required := [] } }

/-- Two servers that both expose a tool named "t". -/
def demoServers : List (String × Except McpError (List McpToolM)) :=
  [("s1", Except.ok [demoTool]), ("s2", Except.ok [demoTool])]

/-- Claim C10: after a refresh the flattened catalog keeps one entry per
(server, tool) pair — duplicate names included — and the provider-facing
conversion is 1-to-1 with it, while the routing table maps each name to the
single server processed last among those exposing it; on the concrete
two-server example both catalog entries named "t" survive while the routing
table routes "t" to "s2" only. -/
theorem refresh_tools_duplicate_names_catalog_vs_routing :
    (∀ (servers : List (String × Except McpError (List McpToolM))) (n : String),
      (refreshTools servers).1 = successfulTools servers
      ∧ lookupA (refreshTools servers).2 n = lastOwner servers n
      ∧ (getOpenaiTools (refreshTools servers).1).length = (refreshTools servers).1.length)
    ∧ (refreshTools demoServers).1.map McpToolM.name = ["t", "t"]
    ∧ lookupA (refreshTools demoServers).2 "t" = some "s2" := by
  refine ⟨?_, rfl, rfl⟩
  intro servers n
  have h := refreshFrom_spec n servers ([], [])
  refine ⟨by simpa [refreshTools] using h.1, ?_, by simp [getOpenaiTools]⟩
  have h2 := h.2
  rcases hlo : lastOwner servers n with _ | s <;>
    simpa [refreshTools, lookupA, hlo] using h2

/-- The characters of the pattern "/sse". -/
def sseSeg : List Char := ['/', 's', 's', 'e']

/-- The characters of the replacement "/message". -/
def msgSeg : List Char := ['/', 'm', 'e', 's', 's', 'a', 'g', 'e']

/-- Whether the string starts with the pattern "/sse". -/
def sseAt : List Char → Bool
  | c1 :: c2 :: c3 :: c4 :: _ => decide (c1 = '/' ∧ c2 = 's' ∧ c3 = 's' ∧ c4 = 'e')
  | _ => false

/-- Rust `str::replace("/sse", "/message")`: scan left to right, replacing each
leftmost non-overlapping occurrence of "/sse" by "/message". -/
def replaceSse : List Char → List Char
  | c1 :: c2 :: c3 :: c4 :: rest =>
    if c1 = '/' ∧ c2 = 's' ∧ c3 = 's' ∧ c4 = 'e'
    then msgSeg ++ replaceSse rest
    else c1 :: replaceSse (c2 :: c3 :: c4 :: rest)
  | c :: rest => c :: replaceSse rest
  | [] => []

/-- `SseTransport::get_post_url` (mcp.rs lines 456-459):
`self.url.replace("/sse", "/message")`. -/
def getPostUrl (url : List Char) : List Char := replaceSse url

/-- Whether "/sse" occurs anywhere in the string. -/
def hasSse : List Char → Bool
  | [] => false
  | c :: rest => sseAt (c :: rest) || hasSse rest

/-- Specification-side reading of claim C6: the listen URL with only its
trailing path segment substituted (everything after the last slash replaced by
"message"), leaving every other part of the URL unchanged. -/
def specSubstituteTrailingSegment (url : List Char) : List Char :=
  ((url.reverse.dropWhile (fun c => !decide (c = '/'))).drop 1).reverse ++ msgSeg

theorem replaceSse_cons_of_sseAt_false (c : Char) (rest : List Char)
    (h : sseAt (c :: rest) = false) :
    replaceSse (c :: rest) = c :: replaceSse rest := by
  rcases rest with _ | ⟨c2, _ | ⟨c3, _ | ⟨c4, r2⟩⟩⟩
  · rfl
  · rfl
  · rfl
  · have hc : ¬ (c = '/' ∧ c2 = 's' ∧ c3 = 's' ∧ c4 = 'e') := of_decide_eq_false h
    show (if c = '/' ∧ c2 = 's' ∧ c3 = 's' ∧ c4 = 'e'
          then msgSeg ++ replaceSse r2
          else c :: replaceSse (c2 :: c3 :: c4 :: r2)) = c :: replaceSse (c2 :: c3 :: c4 :: r2)
    exact if_neg hc

theorem sseAt_cons_append_sse (c : Char) (rest : List Char)
    (h : sseAt (c :: rest) = false) :
    sseAt (c :: (rest ++ sseSeg)) = false := by
  rcases rest with _ | ⟨c2, _ | ⟨c3, _ | ⟨c4, r2⟩⟩⟩
  · exact decide_eq_false (fun hc => absurd hc.2.1 (by decide))
  · exact decide_eq_false (fun hc => absurd hc.2.2.1 (by decide))
  · exact decide_eq_false (fun hc => absurd hc.2.2.2 (by decide))
  · exact h

/-- Claim C6, amended: the outbound POST endpoint is the listen URL with every
occurrence of the substring "/sse" replaced by "/message"; in particular, when
"/sse" occurs only as the trailing segment (no occurrence elsewhere), exactly
that trailing segment is substituted and the rest of the URL is unchanged. -/
theorem get_post_url_replaces_all_sse_occurrences (base : List Char)
    (h : hasSse base = false) :
    getPostUrl (base ++ sseSeg) = base ++ msgSeg := by
  induction base with
  | nil => decide
  | cons c rest ih =>
    simp only [hasSse, Bool.or_eq_false_iff] at h
    have hkey : sseAt (c :: (rest ++ sseSeg)) = false :=
      sseAt_cons_append_sse c rest h.1
    calc getPostUrl ((c :: rest) ++ sseSeg)
        = replaceSse (c :: (rest ++ sseSeg)) := rfl
      _ = c :: replaceSse (rest ++ sseSeg) := replaceSse_cons_of_sseAt_false c _ hkey
      _ = c :: (rest ++ msgSeg) := congrArg (List.cons c) (ih h.2)

theorem get_post_url_replaces_all_sse_occurrences_witness :
    getPostUrl (['h', 't', 't', 'p', ':', '/', '/', 'h'] ++ sseSeg)
      = ['h', 't', 't', 'p', ':', '/', '/', 'h'] ++ msgSeg :=
  get_post_url_replaces_all_sse_occurrences ['h', 't', 't', 'p', ':', '/', '/', 'h'] (by decide)

/-- Claim C6, counterexample: on the listen URL "http://h/sse/sse" the code
replaces BOTH occurrences of "/sse" (giving "http://h/message/message"),
while substituting only the trailing path segment would give
"http://h/sse/message"; the two disagree. -/
theorem get_post_url_not_only_trailing_segment :
    getPostUrl ['h', 't', 't', 'p', ':', '/', '/', 'h', '/', 's', 's', 'e', '/', 's', 's', 'e']
      = ['h', 't', 't', 'p', ':', '/', '/', 'h', '/', 'm', 'e', 's', 's', 'a', 'g', 'e',
          '/', 'm', 'e', 's', 's', 'a', 'g', 'e']
    ∧ specSubstituteTrailingSegment
        ['h', 't', 't', 'p', ':', '/', '/', 'h', '/', 's', 's', 'e', '/', 's', 's', 'e']
      = ['h', 't', 't', 'p', ':', '/', '/', 'h', '/', 's', 's', 'e',
          '/', 'm', 'e', 's', 's', 'a', 'g', 'e']
    ∧ getPostUrl ['h', 't', 't', 'p', ':', '/', '/', 'h', '/', 's', 's', 'e', '/', 's', 's', 'e']
      ≠ specSubstituteTrailingSegment
          ['h', 't', 't', 'p', ':', '/', '/', 'h', '/', 's', 's', 'e', '/', 's', 's', 'e'] := by
  refine ⟨by decide, by decide, by decide⟩

/-- Position of the first blank-line delimiter, modelling
`buffer.find("\n\n")` in `SseTransport::start_sse_listener` (mcp.rs line 390). -/
def findDelim : List Char → Option Nat
  | c1 :: c2 :: rest =>
    if c1 = '\n' ∧ c2 = '\n' then some 0
    else (findDelim (c2 :: rest)).map (· + 1)
  | _ => none

/-- The frame-extraction loop of `SseTransport::start_sse_listener` (mcp.rs
lines 390-392), with explicit fuel so that it is structurally recursive:
repeatedly find the first "\n\n", cut the frame before it, and keep the text
after it; the trailing text with no delimiter remains buffered.  The fuel is
adequate whenever it bounds the length of the input. -/
def splitFramesFuel : Nat → List Char → List (List Char) × List Char
  | 0, s => ([], s)
  | fuel + 1, s =>
    match findDelim s with
    | none => ([], s)
    | some p =>
      let q := splitFramesFuel fuel (s.drop (p + 2))
      (s.take p :: q.1, q.2)

/-- All complete frames of a buffer and the remaining (incomplete) tail. -/
def splitFrames (s : List Char) : List (List Char) × List Char :=
  splitFramesFuel s.length s

theorem findDelim_le (s : List Char) : ∀ p, findDelim s = some p → p + 2 ≤ s.length := by
  induction s with
  | nil => intro p h; simp [findDelim] at h
  | cons c1 rest ih =>
    intro p h
    rcases rest with _ | ⟨c2, rest2⟩
    · simp [findDelim] at h
    · by_cases hc : c1 = '\n' ∧ c2 = '\n'
      · simp [findDelim, hc] at h
        simp [List.length_cons]
        omega
      · simp [findDelim, hc] at h
        obtain ⟨q, hq, hpq⟩ := h
        have h2 := ih q hq
        simp [List.length_cons] at h2 ⊢
        omega

theorem findDelim_append (s t : List Char) :
    ∀ p, findDelim s = some p → findDelim (s ++ t) = some p := by
  induction s with
  | nil => intro p h; simp [findDelim] at h
  | cons c1 rest ih =>
    intro p h
    rcases rest with _ | ⟨c2, rest2⟩
    · simp [findDelim] at h
    · by_cases hc : c1 = '\n' ∧ c2 = '\n'
      · simp [findDelim, hc] at h ⊢
        exact h
      · simp [findDelim, hc] at h
        obtain ⟨q, hq, hpq⟩ := h
        have h2 := ih q hq
        simp [findDelim, hc]
        refine ⟨q, ?_, hpq⟩
        simpa using h2

theorem splitFramesFuel_irrel :
    ∀ fuel1 fuel2 (s : List Char), s.length ≤ fuel1 → s.length ≤ fuel2 →
      splitFramesFuel fuel1 s = splitFramesFuel fuel2 s := by
  intro fuel1
  induction fuel1 with
  | zero =>
    intro fuel2 s h1 h2
    have hnil : s = [] := List.eq_nil_of_length_eq_zero (Nat.le_zero.mp h1)
    subst hnil
    cases fuel2 <;> simp [splitFramesFuel, findDelim]
  | succ f ih =>
    intro fuel2 s h1 h2
    cases s with
    | nil => cases fuel2 <;> simp [splitFramesFuel, findDelim]
    | cons c rest =>
      cases fuel2 with
      | zero => simp at h2
      | succ f2 =>
        rcases hd : findDelim (c :: rest) with _ | p
        · simp [splitFramesFuel, hd]
        · have hdl : ((c :: rest).drop (p + 2)).length ≤ f := by
            simp only [List.length_drop, List.length_cons] at *
            omega
          have hdl2 : ((c :: rest).drop (p + 2)).length ≤ f2 := by
            simp only [List.length_drop, List.length_cons] at *
            omega
          simp only [splitFramesFuel, hd]
          rw [ih f2 ((c :: rest).drop (p + 2)) hdl hdl2]

theorem splitFrames_of_none (s : List Char) (h : findDelim s = none) :
    splitFrames s = ([], s) := by
  rcases hl : s.length with _ | n
  · simp [splitFrames, hl, splitFramesFuel]
  · simp [splitFrames, hl, splitFramesFuel, h]

theorem splitFrames_of_some (s : List Char) (p : Nat) (h : findDelim s = some p) :
    splitFrames s = (s.take p :: (splitFrames (s.drop (p + 2))).1,
      (splitFrames (s.drop (p + 2))).2) := by
  have hlen : p + 2 ≤ s.length := findDelim_le s p h
  rcases hl : s.length with _ | n
  · omega
  · have hfuel : (s.drop (p + 2)).length ≤ n := by
      simp only [List.length_drop]
      omega
    have heq : splitFramesFuel n (s.drop (p + 2)) = splitFrames (s.drop (p + 2)) := by
      rw [splitFrames]
      exact splitFramesFuel_irrel n (s.drop (p + 2)).length (s.drop (p + 2)) hfuel (le_refl _)
    simp [splitFrames, hl, splitFramesFuel, h, heq]

theorem splitFrames_append (a b : List Char) :
    splitFrames (a ++ b)
      = ((splitFrames a).1 ++ (splitFrames ((splitFrames a).2 ++ b)).1,
         (splitFrames ((splitFrames a).2 ++ b)).2) := by
  suffices h : ∀ fuel (a2 : List Char), a2.length ≤ fuel →
      splitFrames (a2 ++ b)
        = ((splitFrames a2).1 ++ (splitFrames ((splitFrames a2).2 ++ b)).1,
           (splitFrames ((splitFrames a2).2 ++ b)).2) by
    exact h a.length a (le_refl _)
  intro fuel
  induction fuel with
  | zero =>
    intro a2 h2
    have hnil : a2 = [] := List.eq_nil_of_length_eq_zero (Nat.le_zero.mp h2)
    subst hnil
    simp [splitFrames, splitFramesFuel]
  | succ f ih =>
    intro a2 h2
    rcases hd : findDelim a2 with _ | p
    · rw [splitFrames_of_none a2 hd]
      simp
    · have hd2 : findDelim (a2 ++ b) = some p := findDelim_append a2 b p hd
      have hlen := findDelim_le a2 p hd
      rw [splitFrames_of_some _ _ hd2, splitFrames_of_some _ _ hd]
      have htake : (a2 ++ b).take p = a2.take p :=
        List.take_append_of_le_length (by omega)
      have hdrop : (a2 ++ b).drop (p + 2) = a2.drop (p + 2) ++ b :=
        List.drop_append_of_le_length hlen
      rw [htake, hdrop]
      have hrec : (a2.drop (p + 2)).length ≤ f := by
        simp only [List.length_drop]
        omega
      rw [ih (a2.drop (p + 2)) hrec]
      simp

/-- `str::strip_prefix`: the tail after the given pattern, when the string
starts with it. -/
def dropPrefixL : List Char → List Char → Option (List Char)
  | [], s => some s
  | _ :: _, [] => none
  | p :: ps, c :: cs => if p = c then dropPrefixL ps cs else none

/-- The characters of the pattern "data: ". -/
def dataSeg : List Char := ['d', 'a', 't', 'a', ':', ' ']

/-- The characters of the pattern "event: session\ndata: ". -/
def sessionSeg : List Char :=
  ['e', 'v', 'e', 'n', 't', ':', ' ', 's', 'e', 's', 's', 'i', 'o', 'n', '\n',
   'd', 'a', 't', 'a', ':', ' ']

/-- `str::trim`: whitespace removed from both ends. -/
def trimL (s : List Char) : List Char :=
  ((s.dropWhile Char.isWhitespace).reverse.dropWhile Char.isWhitespace).reverse

/-- The mutable state of the SSE listener of `SseTransport`: the shared
pending-request table and the stored session identifier. -/
structure SseState where
  pending : List (Nat × Nat)
  session : Option (List Char)

/-- Interpretation of one extracted SSE frame by
`SseTransport::start_sse_listener` (mcp.rs lines 394-425): a `data: ` frame is
decoded as a response (decoding failures ignored) and resolved against the
pending table exactly as in the stdio reader; otherwise an
`event: session\ndata: ` frame stores the trimmed session id; any other frame
— in particular an empty one — is ignored.  The external serde_json decoder is
the parameter `parseResp`. -/
def handleEvent (parseResp : List Char → Option JsonRpcResponseM) (st : SseState)
    (event : List Char) : SseState :=
  match dropPrefixL dataSeg event with
  | some d =>
    match parseResp d with
    | some resp => { pending := (readerStep st.pending resp).1, session := st.session }
    | none => st
  | none =>
    match dropPrefixL sessionSeg event with
    | some sid => { pending := st.pending, session := some (trimL sid) }
    | none => st

/-- The Unicode replacement character U+FFFD. -/
def replChar : Char := Char.ofNat 0xFFFD

/-- Whether a byte is a UTF-8 continuation byte (0x80-0xBF). -/
def isCont (b : Nat) : Bool := decide (0x80 ≤ b ∧ b ≤ 0xBF)

/-- Allowed second byte of a three-byte UTF-8 sequence led by `b0` (the E0/ED
special ranges exclude overlong encodings and surrogates). -/
def cont3ok (b0 b1 : Nat) : Bool :=
  if b0 = 0xE0 then decide (0xA0 ≤ b1 ∧ b1 ≤ 0xBF)
  else if b0 = 0xED then decide (0x80 ≤ b1 ∧ b1 ≤ 0x9F)
  else isCont b1

/-- Allowed second byte of a four-byte UTF-8 sequence led by `b0` (the F0/F4
special ranges exclude overlong encodings and values above U+10FFFF). -/
def cont4ok (b0 b1 : Nat) : Bool :=
  if b0 = 0xF0 then decide (0x90 ≤ b1 ∧ b1 ≤ 0xBF)
  else if b0 = 0xF4 then decide (0x80 ≤ b1 ∧ b1 ≤ 0x8F)
  else isCont b1

/-- `String::from_utf8_lossy` over a byte list, with fuel for structural
recursion (adequate whenever it bounds the input length, since every step
consumes at least one byte): well-formed sequences decode to their scalar
value; each maximal subpart of an ill-formed subsequence — an invalid lead
byte, a lone continuation byte, or the longest valid prefix of a truncated or
broken sequence — is replaced by one U+FFFD. -/
def utf8LossyFuel : Nat → List Nat → List Char
  | 0, _ => []
  | fuel + 1, bs =>
    match bs with
    | [] => []
    | b0 :: rest =>
      if b0 < 0x80 then Char.ofNat b0 :: utf8LossyFuel fuel rest
      else if b0 < 0xC2 then replChar :: utf8LossyFuel fuel rest
      else if b0 < 0xE0 then
        match rest with
        | b1 :: rest2 =>
          if isCont b1
          then Char.ofNat ((b0 - 0xC0) * 0x40 + (b1 - 0x80)) :: utf8LossyFuel fuel rest2
          else replChar :: utf8LossyFuel fuel rest
        | [] => replChar :: utf8LossyFuel fuel rest
      else if b0 < 0xF0 then
        match rest with
        | b1 :: rest2 =>
          if cont3ok b0 b1 then
            match rest2 with
            | b2 :: rest3 =>
              if isCont b2
              then Char.ofNat ((b0 - 0xE0) * 0x1000 + (b1 - 0x80) * 0x40 + (b2 - 0x80))
                    :: utf8LossyFuel fuel rest3
              else replChar :: utf8LossyFuel fuel rest2
            | [] => replChar :: utf8LossyFuel fuel rest2
          else replChar :: utf8LossyFuel fuel rest
        | [] => replChar :: utf8LossyFuel fuel rest
      else if b0 < 0xF5 then
        match rest with
        | b1 :: rest2 =>
          if cont4ok b0 b1 then
            match rest2 with
            | b2 :: rest3 =>
              if isCont b2 then
                match rest3 with
                | b3 :: rest4 =>
                  if isCont b3
                  then Char.ofNat ((b0 - 0xF0) * 0x40000 + (b1 - 0x80) * 0x1000
                        + (b2 - 0x80) * 0x40 + (b3 - 0x80)) :: utf8LossyFuel fuel rest4
                  else replChar :: utf8LossyFuel fuel rest3
                | [] => replChar :: utf8LossyFuel fuel rest3
              else replChar :: utf8LossyFuel fuel rest2
            | [] => replChar :: utf8LossyFuel fuel rest2
          else replChar :: utf8LossyFuel fuel rest
        | [] => replChar :: utf8LossyFuel fuel rest
      else replChar :: utf8LossyFuel fuel rest

/-- `String::from_utf8_lossy(&bytes)` as applied to each received chunk in
`SseTransport::start_sse_listener` (mcp.rs line 387). -/
def utf8Lossy (bs : List Nat) : List Char := utf8LossyFuel bs.length bs

/-- The chunk loop of `SseTransport::start_sse_listener` (mcp.rs lines
384-427), frames only: each received byte chunk is decoded with
`String::from_utf8_lossy` (line 387) and appended to the buffer, all complete
frames are extracted, and the unconsumed tail stays buffered. -/
def processChunks (chunks : List (List Nat)) : List (List Char) × List Char :=
  chunks.foldl
    (fun acc c =>
      let p := splitFrames (acc.2 ++ utf8Lossy c)
      (acc.1 ++ p.1, p.2)) ([], [])

/-- The chunk loop including the interpretation of each extracted frame
against the listener state. -/
def sseRun (parseResp : List Char → Option JsonRpcResponseM) (st : SseState)
    (chunks : List (List Nat)) : SseState × List Char :=
  chunks.foldl
    (fun acc c =>
      let p := splitFrames (acc.2 ++ utf8Lossy c)
      (p.1.foldl (handleEvent parseResp) acc.1, p.2)) (st, [])

/-- Claim C5, counterexample: the stream "a中\n\n" (bytes
61 E4 B8 AD 0A 0A) delivered in one chunk yields the frame "a中", but split
inside the three-byte character 中 (after the E4 lead byte) each half is
decoded lossily on arrival, so the parser delivers the garbled frame
"a���" — the two splits do NOT deliver the same frame. -/
theorem sse_frame_mid_character_split_counterexample :
    processChunks [[0x61, 0xE4], [0xB8, 0xAD, 0x0A, 0x0A]]
      = ([['a', replChar, replChar, replChar]], [])
    ∧ processChunks [[0x61, 0xE4, 0xB8, 0xAD, 0x0A, 0x0A]] = ([['a', '中']], [])
    ∧ processChunks [[0x61, 0xE4], [0xB8, 0xAD, 0x0A, 0x0A]]
      ≠ processChunks [[0x61, 0xE4, 0xB8, 0xAD, 0x0A, 0x0A]] := by
  refine ⟨by decide, by decide, by decide⟩

/-- Claim C5, amended: (1) for every split of the stream bytes into two
chunks at a UTF-8 character boundary — any split where the per-chunk lossy
decode agrees with decoding the whole stream — the frame parser extracts
exactly the same frames (and keeps the same buffered tail) as when the bytes
arrive in one chunk; (2) the same holds for the full listener state after
interpreting the frames; (3) an empty frame (two consecutive blank-line
delimiters) is ignored: it resolves no pending entry and leaves the session
identifier unchanged. -/
theorem sse_frame_boundary_split_invariance_and_empty_frame :
    (∀ b1 b2 : List Nat, utf8Lossy (b1 ++ b2) = utf8Lossy b1 ++ utf8Lossy b2 →
        processChunks [b1, b2] = processChunks [b1 ++ b2])
    ∧ (∀ (parseResp : List Char → Option JsonRpcResponseM) (st : SseState) (b1 b2 : List Nat),
        utf8Lossy (b1 ++ b2) = utf8Lossy b1 ++ utf8Lossy b2 →
        sseRun parseResp st [b1, b2] = sseRun parseResp st [b1 ++ b2])
    ∧ (∀ (parseResp : List Char → Option JsonRpcResponseM) (st : SseState),
        handleEvent parseResp st [] = st) := by
  refine ⟨?_, ?_, ?_⟩
  · intro b1 b2 hsplit
    simp only [processChunks, List.foldl_cons, List.foldl_nil, List.nil_append, List.append_nil]
    rw [hsplit, splitFrames_append (utf8Lossy b1) (utf8Lossy b2)]
  · intro parseResp st b1 b2 hsplit
    simp only [sseRun, List.foldl_cons, List.foldl_nil, List.nil_append, List.append_nil]
    rw [hsplit, splitFrames_append (utf8Lossy b1) (utf8Lossy b2)]
    simp [List.foldl_append]
  · intro parseResp st
    rfl

theorem sse_frame_boundary_split_invariance_and_empty_frame_witness :
    utf8Lossy ([0x61] ++ [0xE4, 0xB8, 0xAD, 0x0A, 0x0A])
      = utf8Lossy [0x61] ++ utf8Lossy [0xE4, 0xB8, 0xAD, 0x0A, 0x0A]
    ∧ processChunks [[0x61], [0xE4, 0xB8, 0xAD, 0x0A, 0x0A]]
      = processChunks [[0x61] ++ [0xE4, 0xB8, 0xAD, 0x0A, 0x0A]] :=
  ⟨by decide,
   sse_frame_boundary_split_invariance_and_empty_frame.1
     [0x61] [0xE4, 0xB8, 0xAD, 0x0A, 0x0A] (by decide)⟩

/-- `text.split("\n\n")` in `StreamableHttpTransport::send_request` (mcp.rs
line 599): every piece, the trailing piece (possibly empty) included. -/
def splitEvents (s : List Char) : List (List Char) :=
  (splitFrames s).1 ++ [(splitFrames s).2]

/-- Scan up to the first newline: the text before it and, when a newline was
present, the text after it. -/
def takeLine : List Char → List Char × Option (List Char)
  | [] => ([], none)
  | c :: rest =>
    if c = '\n' then ([], some rest)
    else
      let r := takeLine rest
      (c :: r.1, r.2)

/-- Remove one trailing carriage return (the "\r\n" line-terminator case). -/
def stripCr (l : List Char) : List Char :=
  if l.getLast? = some '\r' then l.dropLast else l

/-- Rust `str::lines`, with fuel for structural recursion: split at "\n" or
"\r\n", the final line terminator optional. -/
def rustLinesFuel : Nat → List Char → List (List Char)
  | 0, _ => []
  | fuel + 1, s =>
    match s with
    | [] => []
    | c :: rest0 =>
      match takeLine (c :: rest0) with
      | (line, some rest) => stripCr line :: rustLinesFuel fuel rest
      | (line, none) => [line]

/-- `event.lines()` (mcp.rs line 602). -/
def rustLines (s : List Char) : List (List Char) := rustLinesFuel s.length s

/-- The characters of the pattern "data:". -/
def dataColonSeg : List Char := ['d', 'a', 't', 'a', ':']

/-- The per-line data extraction of mcp.rs lines 605-614: strip `data: `
preferentially, otherwise strip `data:`. -/
def extractData (line : List Char) : Option (List Char) :=
  match dropPrefixL dataSeg line with
  | some d => some d
  | none => dropPrefixL dataColonSeg line

/-- `data_lines.join("\n")` (mcp.rs line 617). -/
def joinNl : List (List Char) → List Char
  | [] => []
  | [l] => l
  | l :: ls => l ++ '\n' :: joinNl ls

/-- The event loop of the `text/event-stream` branch of
`StreamableHttpTransport::send_request` (mcp.rs lines 601-626): for each
blank-line-delimited event in order, collect its `data:` lines; if there are
any, try to decode their joined payload as a response envelope (the external
serde_json decoder is `parseResp`); on success return — as a protocol error if
the envelope carries `error`, otherwise as `result.unwrap_or(Null)`; events
with no data lines or an undecodable payload are skipped; if no event
qualifies, fail with the `无法解析 SSE 响应` error. -/
def handleSseEvents (parseResp : List Char → Option JsonRpcResponseM) :
    List (List Char) → Except McpError JsonValue
  | [] => Except.error McpError.SseUnparsable
  | ev :: rest =>
    if ((rustLines ev).filterMap extractData).isEmpty then handleSseEvents parseResp rest
    else
      match parseResp (joinNl ((rustLines ev).filterMap extractData)) with
      | some resp =>
        match resp.error with
        | some e => Except.error (McpError.ProtocolError e.code e.message)
        | none => Except.ok (resp.result.getD JsonValue.null)
      | none => handleSseEvents parseResp rest

/-- The whole `text/event-stream` branch of
`StreamableHttpTransport::send_request`. -/
def streamableHttpParseBody (parseResp : List Char → Option JsonRpcResponseM)
    (body : List Char) : Except McpError JsonValue :=
  handleSseEvents parseResp (splitEvents body)

/-- Specification-side description of what one event contributes: `none` when
the event has no data lines or its payload does not decode, otherwise the
delivered result. -/
def decodeSseEvent (parseResp : List Char → Option JsonRpcResponseM)
    (ev : List Char) : Option (Except McpError JsonValue) :=
  if ((rustLines ev).filterMap extractData).isEmpty then none
  else
    match parseResp (joinNl ((rustLines ev).filterMap extractData)) with
    | some resp =>
      match resp.error with
      | some e => some (Except.error (McpError.ProtocolError e.code e.message))
      | none => some (Except.ok (resp.result.getD JsonValue.null))
    | none => none

theorem handleSseEvents_eq_firstDecodable
    (parseResp : List Char → Option JsonRpcResponseM) :
    ∀ evs : List (List Char),
      handleSseEvents parseResp evs
        = ((evs.filterMap (decodeSseEvent parseResp)).head?).getD
            (Except.error McpError.SseUnparsable) := by
  intro evs
  induction evs with
  | nil => rfl
  | cons ev rest ih =>
    by_cases hemp : ((rustLines ev).filterMap extractData).isEmpty = true
    · simp [handleSseEvents, decodeSseEvent, hemp, List.filterMap_cons, ih]
    · rcases hp : parseResp (joinNl ((rustLines ev).filterMap extractData)) with _ | resp
      · simp [handleSseEvents, decodeSseEvent, hemp, hp, List.filterMap_cons, ih]
      · rcases he : resp.error with _ | e
        · simp [handleSseEvents, decodeSseEvent, hemp, hp, he, List.filterMap_cons]
        · simp [handleSseEvents, decodeSseEvent, hemp, hp, he, List.filterMap_cons]

/-- Claim C7, amended: the event-stream branch splits the body on blank-line
boundaries and returns the decoded payload of the FIRST frame that has data
lines and whose joined payload decodes as a response envelope (a protocol
error surfacing if that envelope carries a server-side error); frames without
data lines or with undecodable payloads are skipped, and when no frame
qualifies the branch fails with a parse error. -/
theorem streamable_http_first_decodable_frame :
    ∀ (parseResp : List Char → Option JsonRpcResponseM) (body : List Char),
      streamableHttpParseBody parseResp body
        = (((splitEvents body).filterMap (decodeSseEvent parseResp)).head?).getD
            (Except.error McpError.SseUnparsable) := by
  intro parseResp body
  exact handleSseEvents_eq_firstDecodable parseResp (splitEvents body)

/-- The body "event: ping\n\ndata: R1". -/
def demoBody : List Char :=
  ['e', 'v', 'e', 'n', 't', ':', ' ', 'p', 'i', 'n', 'g', '\n', '\n',
   'd', 'a', 't', 'a', ':', ' ', 'R', '1']

/-- A decoder recognizing exactly the payload "R1". -/
def demoParse : List Char → Option JsonRpcResponseM :=
  fun d =>
    if d = ['R', '1']
    then some { id := some 1, result := some (JsonValue.str "ok"), error := none }
    else none

/-- Claim C7, counterexample: on the body "event: ping\n\ndata: R1" the FIRST
blank-line-delimited frame ("event: ping") has no `data:` payload at all, yet
`send_request` succeeds with the envelope decoded from the SECOND frame — so
the decoded envelope is not "the data: payload of the first frame". -/
theorem streamable_http_first_frame_counterexample :
    ((rustLines ((splitEvents demoBody).headD [])).filterMap extractData) = []
    ∧ streamableHttpParseBody demoParse demoBody = Except.ok (JsonValue.str "ok") :=
  ⟨rfl, rfl⟩

/-- `FunctionCall` from llm.rs: tool name and the raw argument text. -/
structure FunctionCallM where
  name : String
  arguments : String
deriving DecidableEq

/-- `ToolCall` from llm.rs. -/
structure ToolCallM where
  id : String
  call_type : String
  function : FunctionCallM
deriving DecidableEq

/-- `CompletionResponse` from llm.rs: optional content and the requested tool
calls. -/
structure CompletionResponseM where
  content : Option String
  tool_calls : List ToolCallM
deriving DecidableEq

/-- `CompletionResponse::has_tool_calls`. -/
def hasToolCallsM (r : CompletionResponseM) : Bool := !r.tool_calls.isEmpty

/-- `LlmMessage` from llm.rs. -/
structure LlmMessageM where
  role : String
  content : Option String
  tool_calls : Option (List ToolCallM)
  tool_call_id : Option String
deriving DecidableEq

/-- `LlmMessage::assistant_with_tool_calls`. -/
def assistantWithToolCalls (content : Option String) (tcs : List ToolCallM) : LlmMessageM :=
  { role := "assistant", content := content, tool_calls := some tcs, tool_call_id := none }

/-- `LlmMessage::tool`. -/
def toolMessage (content : String) (callId : String) : LlmMessageM :=
  { role := "tool", content := some content, tool_calls := none, tool_call_id := some callId }

/-- `McpContent` from mcp.rs. -/
inductive McpContentM where
  | text (t : String)
  | image (data : String) (mime : String)
  | resource (r : JsonValue)

/-- `McpToolResult` from mcp.rs. -/
structure McpToolResultM where
  content : List McpContentM
  is_error : Bool

/-- The result-to-text conversion of `ChatBot::completion_with_tools`
(chat.rs lines 355-372): an `is_error` result renders as `工具调用错误: `
followed by the Debug formatting of the content list (the external formatter
is `dbgFmt`); otherwise the text blocks are joined with newlines. -/
def toolResultText (dbgFmt : List McpContentM → String) (r : McpToolResultM) : String :=
  if r.is_error then "工具调用错误: " ++ dbgFmt r.content
  else
    String.intercalate "\n" (r.content.filterMap (fun c =>
      match c with
      | McpContentM.text t => some t
      | _ => none))

/-- Execution of one requested tool call (chat.rs lines 343-387): the raw
argument text is parsed by the external serde_json parser `parseJson`,
degrading to `Null` when it is not valid JSON
(`serde_json::from_str(arguments).unwrap_or(Value::Null)`, line 350); the call
is then forwarded through the Catalog Manager (`callTool`, an IO boundary),
and the outcome — including any failure — is rendered as the tool-result text.
Returns the argument value actually passed and that text. -/
def execToolCall (parseJson : String → Option JsonValue)
    (callTool : String → JsonValue → Except String McpToolResultM)
    (dbgFmt : List McpContentM → String)
    (tc : ToolCallM) : JsonValue × String :=
  ((parseJson tc.function.arguments).getD JsonValue.null,
   match callTool tc.function.name ((parseJson tc.function.arguments).getD JsonValue.null) with
   | Except.ok r => toolResultText dbgFmt r
   | Except.error e => "工具调用失败: " ++ e)

/-- `final_response` update of one iteration (chat.rs lines 319-323): content,
when present and non-empty, replaces the remembered answer. -/
def contentStep (fr : String) (content : Option String) : String :=
  match content with
  | some c => if c = "" then fr else c
  | none => fr

/-- Observable trace of one `completion_with_tools` run: the returned value,
the number of completion requests performed, the content of each completion
response in order, the tool calls requested by each completion in order, the
(tool name, parsed argument) pairs executed in order, and the final message
sequence. -/
structure LoopTrace where
  result : Except String String
  completions : Nat
  contents : List (Option String)
  requested : List (List ToolCallM)
  executed : List (String × JsonValue)
  messages : List LlmMessageM

/-- The code after the loop (chat.rs lines 390-394): fail with
`LLM 没有返回有效内容` when no non-empty content was ever recorded, otherwise
return the recorded answer. -/
def loopFinish (fr : String) (comps : Nat) (cons : List (Option String))
    (reqs : List (List ToolCallM)) (execed : List (String × JsonValue))
    (msgs : List LlmMessageM) : LoopTrace :=
  { result := if fr = "" then Except.error "LLM 没有返回有效内容" else Except.ok fr,
    completions := comps, contents := cons, requested := reqs, executed := execed,
    messages := msgs }

/-- The iteration loop of `ChatBot::completion_with_tools` (chat.rs lines
310-388), with the remaining iteration budget as fuel and the accumulated
trace threaded through: each iteration performs one completion (a provider
failure aborts the turn with `LLM API 调用失败`), records the content, stops
when no tool call is requested, and otherwise appends the assistant message,
executes every requested call in order appending one tool message each, and
continues. -/
def loopAux (provider : List LlmMessageM → Except String CompletionResponseM)
    (parseJson : String → Option JsonValue)
    (callTool : String → JsonValue → Except String McpToolResultM)
    (dbgFmt : List McpContentM → String) :
    Nat → List LlmMessageM → String → Nat → List (Option String) →
      List (List ToolCallM) → List (String × JsonValue) → LoopTrace
  | 0, msgs, fr, comps, cons, reqs, execed => loopFinish fr comps cons reqs execed msgs
  | fuel + 1, msgs, fr, comps, cons, reqs, execed =>
    match provider msgs with
    | Except.error e =>
      { result := Except.error ("LLM API 调用失败: " ++ e), completions := comps + 1,
        contents := cons, requested := reqs, executed := execed, messages := msgs }
    | Except.ok resp =>
      if resp.tool_calls.isEmpty then
        loopFinish (contentStep fr resp.content) (comps + 1) (cons ++ [resp.content])
          (reqs ++ [resp.tool_calls]) execed msgs
      else
        loopAux provider parseJson callTool dbgFmt fuel
          ((msgs ++ [assistantWithToolCalls resp.content resp.tool_calls])
            ++ resp.tool_calls.map (fun tc =>
                toolMessage (execToolCall parseJson callTool dbgFmt tc).2 tc.id))
          (contentStep fr resp.content) (comps + 1) (cons ++ [resp.content])
          (reqs ++ [resp.tool_calls])
          (execed ++ resp.tool_calls.map (fun tc =>
              (tc.function.name, (execToolCall parseJson callTool dbgFmt tc).1)))

/-- `ChatBot::completion_with_tools` over a fresh turn: iteration budget
`max_tool_iterations`, empty `final_response`. -/
def completionWithTools (provider : List LlmMessageM → Except String CompletionResponseM)
    (parseJson : String → Option JsonValue)
    (callTool : String → JsonValue → Except String McpToolResultM)
    (dbgFmt : List McpContentM → String)
    (maxIter : Nat) (msgs : List LlmMessageM) : LoopTrace :=
  loopAux provider parseJson callTool dbgFmt maxIter msgs "" 0 [] [] []

/-- The executed (tool name, parsed argument) pairs corresponding to a list of
per-iteration requested tool calls: every requested call, in order, with its
argument text parsed and degraded to `Null` on failure. -/
def joinedExec (parseJson : String → Option JsonValue) (reqs : List (List ToolCallM)) :
    List (String × JsonValue) :=
  reqs.flatten.map (fun tc =>
    (tc.function.name, (parseJson tc.function.arguments).getD JsonValue.null))

/-- Fold of `contentStep` over observed contents, starting from `init`. -/
def lnecFrom (init : String) (cons : List (Option String)) : String :=
  cons.foldl contentStep init

/-- The last non-empty content among the observed completion contents (empty
when none exists). -/
def lastNonEmptyContent (cons : List (Option String)) : String := lnecFrom "" cons

theorem loopAux_req_exec (provider : List LlmMessageM → Except String CompletionResponseM)
    (pj : String → Option JsonValue)
    (ct : String → JsonValue → Except String McpToolResultM)
    (dbg : List McpContentM → String) :
    ∀ (fuel : Nat) (msgs : List LlmMessageM) (fr : String) (comps : Nat)
      (cons : List (Option String)) (reqs : List (List ToolCallM))
      (execed : List (String × JsonValue)),
      ∃ extra : List (List ToolCallM),
        (loopAux provider pj ct dbg fuel msgs fr comps cons reqs execed).requested = reqs ++ extra
        ∧ (loopAux provider pj ct dbg fuel msgs fr comps cons reqs execed).executed
            = execed ++ joinedExec pj extra := by
  intro fuel
  induction fuel with
  | zero =>
    intro msgs fr comps cons reqs execed
    exact ⟨[], by simp [loopAux, loopFinish, joinedExec], by simp [loopAux, loopFinish, joinedExec]⟩
  | succ f ih =>
    intro msgs fr comps cons reqs execed
    rcases hp : provider msgs with e | resp
    · exact ⟨[], by simp [loopAux, hp, joinedExec], by simp [loopAux, hp, joinedExec]⟩
    · by_cases hemp : resp.tool_calls.isEmpty = true
      · have hnil : resp.tool_calls = [] := by simpa using hemp
        refine ⟨[resp.tool_calls], ?_, ?_⟩
        · simp [loopAux, hp, hemp, loopFinish]
        · simp [loopAux, hp, hemp, loopFinish, joinedExec, hnil]
      · obtain ⟨extra, h1, h2⟩ := ih
          ((msgs ++ [assistantWithToolCalls resp.content resp.tool_calls])
            ++ resp.tool_calls.map (fun tc => toolMessage (execToolCall pj ct dbg tc).2 tc.id))
          (contentStep fr resp.content) (comps + 1) (cons ++ [resp.content])
          (reqs ++ [resp.tool_calls])
          (execed ++ resp.tool_calls.map (fun tc =>
              (tc.function.name, (execToolCall pj ct dbg tc).1)))
        refine ⟨resp.tool_calls :: extra, ?_, ?_⟩
        · simp only [loopAux, hp, hemp, Bool.false_eq_true, if_false]
          rw [h1]
          simp
        · simp only [loopAux, hp, hemp, Bool.false_eq_true, if_false]
          rw [h2]
          simp [joinedExec, execToolCall, List.append_assoc]

theorem loopAux_cap (provider : List LlmMessageM → Except String CompletionResponseM)
    (pj : String → Option JsonValue)
    (ct : String → JsonValue → Except String McpToolResultM)
    (dbg : List McpContentM → String)
    (H : ∀ msgs, ∃ r, provider msgs = Except.ok r ∧ r.tool_calls ≠ []
        ∧ (r.content = none ∨ r.content = some "")) :
    ∀ (fuel : Nat) (msgs : List LlmMessageM) (comps : Nat)
      (cons : List (Option String)) (reqs : List (List ToolCallM))
      (execed : List (String × JsonValue)),
      (loopAux provider pj ct dbg fuel msgs "" comps cons reqs execed).completions = comps + fuel
      ∧ (loopAux provider pj ct dbg fuel msgs "" comps cons reqs execed).result
          = Except.error "LLM 没有返回有效内容"
      ∧ (loopAux provider pj ct dbg fuel msgs "" comps cons reqs execed).requested.length
          = reqs.length + fuel := by
  intro fuel
  induction fuel with
  | zero =>
    intro msgs comps cons reqs execed
    exact ⟨rfl, by simp [loopAux, loopFinish], rfl⟩
  | succ f ih =>
    intro msgs comps cons reqs execed
    obtain ⟨r, hp, hnil, hcon⟩ := H msgs
    have hemp : r.tool_calls.isEmpty = false := by
      rcases hr2 : r.tool_calls with _ | ⟨a, b⟩
      · exact absurd hr2 hnil
      · rfl
    have hcs : contentStep "" r.content = "" := by
      rcases hcon with hc | hc <;> simp [contentStep, hc]
    simp only [loopAux, hp, hemp, Bool.false_eq_true, if_false, hcs]
    refine ⟨?_, ?_, ?_⟩
    · rw [(ih _ _ _ _ _).1]
      omega
    · exact (ih _ _ _ _ _).2.1
    · rw [(ih _ _ _ _ _).2.2]
      simp [List.length_append]
      omega

theorem loopAux_last (provider : List LlmMessageM → Except String CompletionResponseM)
    (pj : String → Option JsonValue)
    (ct : String → JsonValue → Except String McpToolResultM)
    (dbg : List McpContentM → String) :
    ∀ (fuel : Nat) (msgs : List LlmMessageM) (fr : String) (comps : Nat)
      (cons : List (Option String)) (reqs : List (List ToolCallM))
      (execed : List (String × JsonValue)),
      ∃ extra : List (Option String),
        (loopAux provider pj ct dbg fuel msgs fr comps cons reqs execed).contents = cons ++ extra
        ∧ ∀ s, (loopAux provider pj ct dbg fuel msgs fr comps cons reqs execed).result
              = Except.ok s →
            (s = lnecFrom fr extra ∧ ¬ (s = "")) := by
  intro fuel
  induction fuel with
  | zero =>
    intro msgs fr comps cons reqs execed
    refine ⟨[], by simp [loopAux, loopFinish], ?_⟩
    intro s hs
    simp only [loopAux, loopFinish] at hs
    split at hs
    · simp at hs
    · simp only [Except.ok.injEq] at hs
      subst hs
      refine ⟨by simp [lnecFrom], ?_⟩
      assumption
  | succ f ih =>
    intro msgs fr comps cons reqs execed
    rcases hp : provider msgs with e | resp
    · refine ⟨[], by simp [loopAux, hp], ?_⟩
      intro s hs
      simp [loopAux, hp] at hs
    · by_cases hemp : resp.tool_calls.isEmpty = true
      · refine ⟨[resp.content], by simp [loopAux, hp, hemp, loopFinish], ?_⟩
        intro s hs
        simp only [loopAux, hp, hemp, if_true, loopFinish] at hs
        split at hs
        · simp at hs
        · simp only [Except.ok.injEq] at hs
          subst hs
          refine ⟨by simp [lnecFrom], ?_⟩
          assumption
      · obtain ⟨extra, h1, h2⟩ := ih
          ((msgs ++ [assistantWithToolCalls resp.content resp.tool_calls])
            ++ resp.tool_calls.map (fun tc => toolMessage (execToolCall pj ct dbg tc).2 tc.id))
          (contentStep fr resp.content) (comps + 1) (cons ++ [resp.content])
          (reqs ++ [resp.tool_calls])
          (execed ++ resp.tool_calls.map (fun tc =>
              (tc.function.name, (execToolCall pj ct dbg tc).1)))
        refine ⟨resp.content :: extra, ?_, ?_⟩
        · simp only [loopAux, hp, hemp, Bool.false_eq_true, if_false]
          rw [h1]
          simp
        · intro s hs
          simp only [loopAux, hp, hemp, Bool.false_eq_true, if_false] at hs
          have h3 := h2 s hs
          refine ⟨?_, h3.2⟩
          rw [h3.1]
          simp [lnecFrom]

/-- Claim C3: when the provider on every iteration requests at least one tool
call and returns no non-empty content, `completion_with_tools` with cap N ≥ 1
performs exactly N completion requests, executes every requested tool call of
all N iterations (with arguments parsed, degrading to Null), then stops
without a further completion and fails with the no-content error; and — for
every run whatsoever — whenever the loop returns a value, that value is the
last non-empty content observed across all iterations. -/
theorem agent_loop_iteration_cap_and_last_content
    (provider : List LlmMessageM → Except String CompletionResponseM)
    (parseJson : String → Option JsonValue)
    (callTool : String → JsonValue → Except String McpToolResultM)
    (dbgFmt : List McpContentM → String)
    (N : Nat) (msgs0 : List LlmMessageM)
    (hN : 1 ≤ N)
    (H : ∀ msgs, ∃ r, provider msgs = Except.ok r ∧ r.tool_calls ≠ []
        ∧ (r.content = none ∨ r.content = some "")) :
    (completionWithTools provider parseJson callTool dbgFmt N msgs0).completions = N
    ∧ (completionWithTools provider parseJson callTool dbgFmt N msgs0).result
        = Except.error "LLM 没有返回有效内容"
    ∧ (completionWithTools provider parseJson callTool dbgFmt N msgs0).requested.length = N
    ∧ (completionWithTools provider parseJson callTool dbgFmt N msgs0).executed
        = joinedExec parseJson
            (completionWithTools provider parseJson callTool dbgFmt N msgs0).requested
    ∧ (∀ (provider2 : List LlmMessageM → Except String CompletionResponseM)
        (pj2 : String → Option JsonValue)
        (ct2 : String → JsonValue → Except String McpToolResultM)
        (dbg2 : List McpContentM → String)
        (N2 : Nat) (msgs2 : List LlmMessageM) (s : String),
        (completionWithTools provider2 pj2 ct2 dbg2 N2 msgs2).result = Except.ok s →
          s = lastNonEmptyContent
              (completionWithTools provider2 pj2 ct2 dbg2 N2 msgs2).contents) := by
  have hcap := loopAux_cap provider parseJson callTool dbgFmt H N msgs0 0 [] [] []
  refine ⟨by simpa [completionWithTools] using hcap.1,
    by simpa [completionWithTools] using hcap.2.1,
    by simpa [completionWithTools] using hcap.2.2, ?_, ?_⟩
  · obtain ⟨extra, h1, h2⟩ := loopAux_req_exec provider parseJson callTool dbgFmt N msgs0 "" 0 [] [] []
    simp only [completionWithTools]
    rw [h1, h2]
    simp
  · intro provider2 pj2 ct2 dbg2 N2 msgs2 s hs
    obtain ⟨extra, h1, h2⟩ := loopAux_last provider2 pj2 ct2 dbg2 N2 msgs2 "" 0 [] [] []
    have h3 := h2 s (by simpa [completionWithTools] using hs)
    rw [h3.1]
    simp only [completionWithTools] at h1 ⊢
    rw [h1]
    simp [lastNonEmptyContent]

/-- A requested tool call whose raw argument text is not valid JSON. -/
def cwToolCall : ToolCallM :=
  { id := "call1", call_type := "function",
    function := { name := "echo", arguments := "not json" } }

/-- A provider that always requests `cwToolCall` with no content. -/
def cwProvider : List LlmMessageM → Except String CompletionResponseM :=
  fun _ => Except.ok { content := none, tool_calls := [cwToolCall] }

/-- A JSON parser that rejects every argument text. -/
def cwParse : String → Option JsonValue := fun _ => none

/-- A catalog manager whose tool calls all fail. -/
def cwCall : String → JsonValue → Except String McpToolResultM :=
  fun _ _ => Except.error "down"

/-- A trivial Debug formatter. -/
def cwDbg : List McpContentM → String := fun _ => ""

theorem agent_loop_iteration_cap_and_last_content_witness :
    (completionWithTools cwProvider cwParse cwCall cwDbg 3 []).completions = 3
    ∧ (completionWithTools cwProvider cwParse cwCall cwDbg 3 []).result
        = Except.error "LLM 没有返回有效内容" := by
  have h := agent_loop_iteration_cap_and_last_content cwProvider cwParse cwCall cwDbg 3 []
    (by omega)
    (fun msgs => ⟨{ content := none, tool_calls := [cwToolCall] }, rfl, by simp, Or.inl rfl⟩)
  exact ⟨h.1, h.2.1⟩

/-- Claim C8: a requested tool call whose raw argument text fails to parse is
still executed, with the `Null` argument value, instead of failing the call or
aborting the loop: the executed argument is `Null`, the result text is
computed by actually forwarding the call with `Null`, such a call always
appears in the executed trace of its iteration, and the loop's executed trace
always covers every requested call of every iteration. -/
theorem tool_call_malformed_arguments_degrade_to_null
    (parseJson : String → Option JsonValue)
    (callTool : String → JsonValue → Except String McpToolResultM)
    (dbgFmt : List McpContentM → String)
    (tc : ToolCallM)
    (h : parseJson tc.function.arguments = none) :
    (execToolCall parseJson callTool dbgFmt tc).1 = JsonValue.null
    ∧ (execToolCall parseJson callTool dbgFmt tc).2
        = (match callTool tc.function.name JsonValue.null with
           | Except.ok r => toolResultText dbgFmt r
           | Except.error e => "工具调用失败: " ++ e)
    ∧ (∀ tcs : List ToolCallM, tc ∈ tcs →
        (tc.function.name, JsonValue.null) ∈ joinedExec parseJson [tcs])
    ∧ (∀ (provider : List LlmMessageM → Except String CompletionResponseM)
        (N : Nat) (msgs0 : List LlmMessageM),
        (completionWithTools provider parseJson callTool dbgFmt N msgs0).executed
          = joinedExec parseJson
              (completionWithTools provider parseJson callTool dbgFmt N msgs0).requested) := by
  refine ⟨by simp [execToolCall, h], by simp [execToolCall, h], ?_, ?_⟩
  · intro tcs htc
    simp only [joinedExec, List.flatten]
    have : (tc.function.name, JsonValue.null)
        = (tc.function.name, (parseJson tc.function.arguments).getD JsonValue.null) := by
      simp [h]
    rw [this]
    exact List.mem_map_of_mem _ (by simpa using htc)
  · intro provider N msgs0
    obtain ⟨extra, h1, h2⟩ :=
      loopAux_req_exec provider parseJson callTool dbgFmt N msgs0 "" 0 [] [] []
    simp only [completionWithTools]
    rw [h1, h2]
    simp

theorem tool_call_malformed_arguments_degrade_to_null_witness :
    (execToolCall cwParse cwCall cwDbg cwToolCall).1 = JsonValue.null :=
  (tool_call_malformed_arguments_degrade_to_null cwParse cwCall cwDbg cwToolCall rfl).1
